import Mathlib

/-!
Verification of the bencode decoder in `src/decoder.rs` (serde-bencode).

The decoder is shallowly embedded: the byte-slice reader becomes a
`List Nat` of remaining bytes (each entry < 256), the `Vec<State>` token
stack becomes a `List State` whose head is the top of the stack, and each
Rust function that threads the reader/stack becomes a pure function that
returns the advanced state.  A Rust `panic!` (the `assert!` in
`parse_byte_string_body` and nothing else on the byte-slice reader, whose
`read` never fails) is modelled as a distinguished `panic` outcome.
-/

namespace Bencode

/-- Error kinds of `BencodeError` (from `error.rs`, used by `decoder.rs`):
`EndOfStream`, `InvalidValue(String)`, `UnknownVariant(String)`. -/
inductive BencodeError : Type where
  | EndOfStream : BencodeError
  | InvalidValue : String → BencodeError
  | UnknownVariant : String → BencodeError
deriving DecidableEq, Repr

/-- The token type `State` of `decoder.rs`: scanned, not-yet-consumed units
of the input (`S` byte string, `I` integer, `L` list open, `D` dict open,
`E` end marker). -/
inductive State : Type where
  | S : List Nat → State
  | I : Int → State
  | L : State
  | D : State
  | E : State
deriving DecidableEq, Repr

/-- Outcome of a scanner-level function: a result plus the remaining input,
an error plus the remaining input, or a Rust panic. -/
inductive ROut (α : Type) : Type where
  | ok : α → List Nat → ROut α
  | err : BencodeError → List Nat → ROut α
  | panic : ROut α
deriving DecidableEq, Repr

/-- Interpret a list of byte values below 128 as the text they spell
(models the `str::from_utf8` steps, which succeed exactly on such bytes
when taken one byte at a time). -/
def bytesToString (l : List Nat) : String :=
  String.mk (l.map Char.ofNat)

/-- Accumulator loop of the decimal-digit part of Rust's `i64::from_str`:
every byte must be an ASCII digit, and the value is accumulated
most-significant-digit first. -/
def digitsValGo : List Nat → Nat → Option Nat
  | [], acc => some acc
  | b :: rest, acc =>
    if 48 ≤ b ∧ b ≤ 57 then digitsValGo rest (acc * 10 + (b - 48)) else none

/-- Digit-string value: `none` on an empty digit string (Rust rejects it). -/
def digitsVal (l : List Nat) : Option Nat :=
  if l = [] then none else digitsValGo l 0

/-- Model of Rust's `str::parse::<i64>` on the byte values of the string:
an optional leading `+` (43) or `-` (45), then a nonempty run of ASCII
digits, rejecting results outside the two's-complement 64-bit range. -/
def parseI64 (s : List Nat) : Option Int :=
  match s with
  | [] => none
  | b :: rest =>
    if b = 43 then
      match digitsVal rest with
      | some v => if (v : Int) ≤ 2 ^ 63 - 1 then some (v : Int) else none
      | none => none
    else if b = 45 then
      match digitsVal rest with
      | some v => if (v : Int) ≤ 2 ^ 63 then some (-(v : Int)) else none
      | none => none
    else
      match digitsVal s with
      | some v => if (v : Int) ≤ 2 ^ 63 - 1 then some (v : Int) else none
      | none => none

/-- Loop of `BencodeDecoder::parse_int`: read one byte at a time; a read of
zero bytes fails with `EndOfStream`; a byte ≥ 128 is not valid UTF-8 on its
own and fails with `InvalidValue`; byte 101 (`e`) terminates and the
accumulated text is parsed as an `i64`; any other byte is accumulated. -/
def parse_int_go : List Nat → List Nat → ROut State
  | [], _ => .err .EndOfStream []
  | b :: rest, acc =>
    if b < 128 then
      if b = 101 then
        match parseI64 acc with
        | some i => .ok (.I i) rest
        | none =>
          .err (.InvalidValue ("Can't parse `" ++ bytesToString acc ++ "` as i64")) rest
      else parse_int_go rest (acc ++ [b])
    else .err (.InvalidValue "Non UTF-8 integer encoding") rest

/-- `BencodeDecoder::parse_int` (entered after the `i` marker byte). -/
def parse_int (input : List Nat) : ROut State :=
  parse_int_go input []

/-- Loop of `BencodeDecoder::parse_byte_string_len`: read until the byte 58
(`:`), accumulating length text; `EndOfStream` when the input runs out;
`InvalidValue` on a byte that is not valid UTF-8 on its own; at `:` the
accumulated text is parsed as an `i64` length. -/
def parse_len_go : List Nat → List Nat → ROut Int
  | [], _ => .err .EndOfStream []
  | b :: rest, acc =>
    if b < 128 then
      if b = 58 then
        match parseI64 acc with
        | some len => .ok len rest
        | none =>
          .err (.InvalidValue ("Can't parse `" ++ bytesToString acc ++ "` as string length")) rest
      else parse_len_go rest (acc ++ [b])
    else .err (.InvalidValue "Non UTF-8 integer encoding") rest

/-- `BencodeDecoder::parse_byte_string_len(len_char)`: the first digit byte
is already in the accumulator. -/
def parse_byte_string_len (first : Nat) (input : List Nat) : ROut Int :=
  parse_len_go input [first]

/-- Body loop of `BencodeDecoder::parse_byte_string_body`: read exactly
`count` raw bytes; the Rust code `assert!(read != 0)` PANICS when the input
is exhausted before `count` bytes were read. -/
def parse_body : Nat → List Nat → ROut (List Nat)
  | 0, input => .ok [] input
  | _ + 1, [] => .panic
  | k + 1, b :: rest =>
    match parse_body k rest with
    | .ok bs out => .ok (b :: bs) out
    | .err e out => .err e out
    | .panic => .panic

/-- `BencodeDecoder::parse_byte_string_body(len)`: Rust's `for _ in 0..len`
performs no iterations for `len ≤ 0`, hence `Int.toNat`. -/
def parse_byte_string_body (len : Int) (input : List Nat) : ROut (List Nat) :=
  parse_body len.toNat input

/-- `BencodeDecoder::parse_byte_string(len_char)`. -/
def parse_byte_string (first : Nat) (input : List Nat) : ROut State :=
  match parse_byte_string_len first input with
  | .ok len rest =>
    match parse_byte_string_body len rest with
    | .ok b out => .ok (.S b) out
    | .err e out => .err e out
    | .panic => .panic
  | .err e rest => .err e rest
  | .panic => .panic

/-- `BencodeDecoder::parse_state`: read one marker byte and dispatch
(`l` = 108, `d` = 100, `e` = 101, `i` = 105, ASCII digit 48–57, anything
else or end of input fails with `EndOfStream`). -/
def parse_state (input : List Nat) : ROut State :=
  match input with
  | [] => .err .EndOfStream []
  | b :: rest =>
    if b = 108 then .ok .L rest
    else if b = 100 then .ok .D rest
    else if b = 101 then .ok .E rest
    else if b = 105 then parse_int rest
    else if 48 ≤ b ∧ b ≤ 57 then parse_byte_string b rest
    else .err .EndOfStream rest

/-- The `BencodeDecoder` struct: the byte-slice reader is the list of
bytes not yet read; the head of `state` is the top of the `Vec` stack. -/
structure BencodeDecoder : Type where
  reader : List Nat
  state : List State
  is_struct : Bool
  is_option : Bool
deriving DecidableEq, Repr

/-- `BencodeDecoder::new`. -/
def BencodeDecoder.new (input : List Nat) : BencodeDecoder :=
  ⟨input, [], false, false⟩

/-- `BencodeDecoder::update_state`: scan one token and push it; a scan
error is swallowed (the stack is left unchanged, though the bytes the
failed scan consumed stay consumed); a scan panic propagates (`none`). -/
def update_state (d : BencodeDecoder) : Option BencodeDecoder :=
  match parse_state d.reader with
  | .ok s rest => some { d with reader := rest, state := s :: d.state }
  | .err _ rest => some { d with reader := rest }
  | .panic => none

/-- Self-describing decoded values, the target shape driven by serde's
`deserialize_any` protocol: `visit_i64`, `visit_byte_buf`, `visit_seq`
(collect the elements in order), `visit_map` (collect the entries in
order). -/
inductive Value : Type where
  | int : Int → Value
  | bytes : List Nat → Value
  | list : List Value → Value
  | dict : List (Value × Value) → Value

/-- What `deserialize_identifier` hands to its visitor: `visit_str` of an
inferred tag in self-describing mode, `visit_bytes` of the staged byte
string in struct mode. -/
inductive Ident : Type where
  | str : String → Ident
  | bytes : List Nat → Ident
deriving DecidableEq, Repr

/-- Outcome of a decoder-level operation: a result or an error together
with the decoder state left behind, a Rust panic, or exhaustion of the
step fuel of the shallow embedding. -/
inductive DOut (α : Type) : Type where
  | ok : α → BencodeDecoder → DOut α
  | err : BencodeError → BencodeDecoder → DOut α
  | panic : DOut α
  | outOfFuel : DOut α

/-- The inline `if self.state.last() == None { self.update_state(); }`
prologue shared by the deserialize entry points (the spec's
`ensure_token`). -/
def ensure_token (d : BencodeDecoder) : Option BencodeDecoder :=
  if d.state.isEmpty then update_state d else some d

/-- `SeqAccess::next_element_seed` (lines 43–52): unconditionally
`update_state`, attempt the element decode, and on ANY failure pop the top
token and report exhaustion (`Ok(None)`), absorbing the error. -/
def next_element_seed {α : Type} (seed : BencodeDecoder → DOut α)
    (d : BencodeDecoder) : DOut (Option α) :=
  match update_state d with
  | none => .panic
  | some d1 =>
    match seed d1 with
    | .ok v d2 => .ok (some v) d2
    | .err _ d2 => .ok none { d2 with state := d2.state.tail }
    | .panic => .panic
    | .outOfFuel => .outOfFuel

/-- `MapAccess::next_key_seed` (lines 57–71): first peek, without popping,
whether the top token is `E` and report exhaustion at once; otherwise
probe a key decode exactly like the sequence path. -/
def next_key_seed {α : Type} (seed : BencodeDecoder → DOut α)
    (d : BencodeDecoder) : DOut (Option α) :=
  if d.state.head? = some State.E then .ok none d
  else
    match update_state d with
    | none => .panic
    | some d1 =>
      match seed d1 with
      | .ok v d2 => .ok (some v) d2
      | .err _ d2 => .ok none { d2 with state := d2.state.tail }
      | .panic => .panic
      | .outOfFuel => .outOfFuel

/-- `MapAccess::next_value_seed` (lines 73–78): `update_state`, then decode
directly; errors propagate. -/
def next_value_seed {α : Type} (seed : BencodeDecoder → DOut α)
    (d : BencodeDecoder) : DOut α :=
  match update_state d with
  | none => .panic
  | some d1 => seed d1

/-- `EnumAccess::variant_seed` (lines 84–87): decode the variant tag with
the given seed and keep the adapter. -/
def variant_seed {α : Type} (seed : BencodeDecoder → DOut α)
    (d : BencodeDecoder) : DOut α :=
  seed d

/-- `VariantAccess::newtype_variant_seed` (lines 23–25): defer to the
payload seed. -/
def newtype_variant_seed {α : Type} (seed : BencodeDecoder → DOut α)
    (d : BencodeDecoder) : DOut α :=
  seed d

/-- `VariantAccess::unit_variant` (lines 27–29). -/
def unit_variant (d : BencodeDecoder) : DOut Unit :=
  .err (.UnknownVariant "Unit variant not supported.") d

/-- `VariantAccess::tuple_variant` (lines 31–33); the length and visitor
are ignored by the source. -/
def tuple_variant {α : Type} (_len : Nat) (d : BencodeDecoder) : DOut α :=
  .err (.UnknownVariant "Tuple variant not supported.") d

/-- `VariantAccess::struct_variant` (lines 35–37); the field list and
visitor are ignored by the source. -/
def struct_variant {α : Type} (_fields : List String) (d : BencodeDecoder) : DOut α :=
  .err (.UnknownVariant "Struct variant not supported.") d

/-- `Deserializer::deserialize_identifier` (lines 270–286): in struct
mode, surface the staged byte string without popping it; otherwise turn
struct mode on and infer a tag string from the shape of the staged
token. -/
def deserialize_identifier (d : BencodeDecoder) : DOut Ident :=
  if d.is_struct then
    match d.state.head? with
    | some (.S b) => .ok (.bytes b) d
    | _ => .err .EndOfStream d
  else
    let d1 := { d with is_struct := true }
    match d.state.head? with
    | some (.I _) => .ok (.str "Integer") d1
    | some (.S _) => .ok (.str "ByteString") d1
    | some .D => .ok (.str "Dict") d1
    | some .L => .ok (.str "List") d1
    | _ => .err .EndOfStream d1

mutual

/-- `Deserializer::deserialize_any` (lines 223–239) driven by a
self-describing `Value` visitor: ensure a token is staged, handle option
mode, then pop and dispatch (`I` → `visit_i64`, `S` → `visit_byte_buf`,
`L` → `visit_seq`, `D` → `visit_map`, `E` or empty → `EndOfStream`). -/
def decode_any : Nat → BencodeDecoder → DOut Value
  | 0, _ => .outOfFuel
  | fuel + 1, d =>
    match ensure_token d with
    | none => .panic
    | some d1 =>
      if d1.is_option then
        decode_any fuel { d1 with is_option := false }
      else
        match d1.state with
        | .I i :: rest => .ok (.int i) { d1 with state := rest }
        | .S s :: rest => .ok (.bytes s) { d1 with state := rest }
        | .L :: rest => seq_loop fuel { d1 with state := rest } []
        | .D :: rest => map_loop fuel { d1 with state := rest } []
        | .E :: rest => .err .EndOfStream { d1 with state := rest }
        | [] => .err .EndOfStream d1

/-- The sequence visitor's drive loop (`visit_seq` consumer): repeatedly
`next_element_seed` with a `Value` element seed, collecting elements. -/
def seq_loop : Nat → BencodeDecoder → List Value → DOut Value
  | 0, _, _ => .outOfFuel
  | fuel + 1, d, acc =>
    match next_element_seed (fun d2 => decode_any fuel d2) d with
    | .ok (some v) d1 => seq_loop fuel d1 (v :: acc)
    | .ok none d1 => .ok (.list acc.reverse) d1
    | .err e d1 => .err e d1
    | .panic => .panic
    | .outOfFuel => .outOfFuel

/-- The map visitor's drive loop (`visit_map` consumer): repeatedly
`next_key_seed` / `next_value_seed` with `Value` seeds, collecting
entries. -/
def map_loop : Nat → BencodeDecoder → List (Value × Value) → DOut Value
  | 0, _, _ => .outOfFuel
  | fuel + 1, d, acc =>
    match next_key_seed (fun d2 => decode_any fuel d2) d with
    | .ok (some k) d1 =>
      match next_value_seed (fun d2 => decode_any fuel d2) d1 with
      | .ok v d2 => map_loop fuel d2 ((k, v) :: acc)
      | .err e d2 => .err e d2
      | .panic => .panic
      | .outOfFuel => .outOfFuel
    | .ok none d1 => .ok (.dict acc.reverse) d1
    | .err e d1 => .err e d1
    | .panic => .panic
    | .outOfFuel => .outOfFuel

end

/-- Field-identifier dispatch of the generic protocol driver for a struct
target with the single field `cow` (bytes 99, 111, 119): serde's derived
field seed accepts the name through `visit_bytes` or `visit_str` and maps
any other name to an ignored field. -/
def ident_is_cow : Ident → Bool
  | .bytes b => b = [99, 111, 119]
  | .str s => s = "cow"

/-- Drive loop of the generic protocol for the one-field struct target
`struct S { cow: Value }` over `visit_map`: probe keys with the
field-identifier seed (`deserialize_identifier`), decode the `cow` value
with `next_value_seed`, skip values of unknown fields, and when the key
probe reports exhaustion deliver the recorded field.  Modelled from the
spec: the struct-shaped caller side (serde's derived visitor) is not part
of `src/`; its missing-field error is surfaced as an `InvalidValue`. -/
def struct_cow_loop : Nat → BencodeDecoder → Option Value → DOut Value
  | 0, _, _ => .outOfFuel
  | fuel + 1, d, acc =>
    match next_key_seed deserialize_identifier d with
    | .ok (some fid) d1 =>
      match next_value_seed (fun d2 => decode_any fuel d2) d1 with
      | .ok v d2 =>
        struct_cow_loop fuel d2 (if ident_is_cow fid then some v else acc)
      | .err e d2 => .err e d2
      | .panic => .panic
      | .outOfFuel => .outOfFuel
    | .ok none d1 =>
      match acc with
      | some v => .ok v d1
      | none => .err (.InvalidValue "missing field cow") d1
    | .err e d1 => .err e d1
    | .panic => .panic
    | .outOfFuel => .outOfFuel

/-- `Deserializer::deserialize_struct` (lines 257–267) driving the
one-field struct target: set struct mode, ensure a token is staged, and
hand the adapter to the struct visitor — the staged `D` token is never
popped. -/
def decode_struct_cow (fuel : Nat) (d : BencodeDecoder) : DOut Value :=
  let d0 := { d with is_struct := true }
  match ensure_token d0 with
  | none => .panic
  | some d1 => struct_cow_loop fuel d1 none

/-- `Deserializer::deserialize_enum` (lines 289–299) composed with the
enum access protocol: clear struct mode, ensure a token is staged, then
`variant_seed` with the identifier seed delivers the variant tag and
`newtype_variant_seed` decodes the payload; the decoded tag and payload
are returned as a pair. -/
def decode_enum (fuel : Nat) (d : BencodeDecoder) : DOut (Ident × Value) :=
  let d0 := { d with is_struct := false }
  match ensure_token d0 with
  | none => .panic
  | some d1 =>
    match variant_seed deserialize_identifier d1 with
    | .ok id d2 =>
      match newtype_variant_seed (fun d3 => decode_any fuel d3) d2 with
      | .ok v d3 => .ok (id, v) d3
      | .err e d3 => .err e d3
      | .panic => .panic
      | .outOfFuel => .outOfFuel
    | .err e d2 => .err e d2
    | .panic => .panic
    | .outOfFuel => .outOfFuel

/-- `from_bytes` specialised to the self-describing `Value` target:
construct a fresh decoder over the input and decode one value.  The fuel
`input.length + 1` bounds the number of decode steps of the embedding;
every step of a run that stages a token consumes input, and the bound is
proved sufficient for every well-formed encoded value below. -/
def from_bytes (input : List Nat) : DOut Value :=
  decode_any (input.length + 1) (BencodeDecoder.new input)

/-- ASCII bytes of the decimal digits of `m`, most significant first; the
fuel argument makes the recursion structural (`m` itself is enough fuel).
Produces nothing for `m = 0`; `natText` handles that case. -/
def natTextAux : Nat → Nat → List Nat
  | 0, _ => []
  | _ + 1, 0 => []
  | f + 1, m + 1 => natTextAux f ((m + 1) / 10) ++ [(m + 1) % 10 + 48]

/-- ASCII bytes of the decimal representation of a natural number. -/
def natText (m : Nat) : List Nat :=
  if m = 0 then [48] else natTextAux m m

/-- ASCII bytes of the decimal text form of an integer, as Rust's
`to_string` renders an `i64` (a leading `-` (45) for negatives). -/
def int_text (n : Int) : List Nat :=
  if n < 0 then 45 :: natText (-n).toNat else natText n.toNat

mutual

/-- The wire encoding of a `Value` per the bencode grammar:
`i<digits>e`, `<len>:<bytes>`, `l<items>e`, `d<entries>e`. -/
def encodeValue : Value → List Nat
  | .int i => 105 :: int_text i ++ [101]
  | .bytes b => natText b.length ++ 58 :: b
  | .list l => 108 :: encodeList l ++ [101]
  | .dict ps => 100 :: encodePairs ps ++ [101]

/-- Concatenated encodings of list items. -/
def encodeList : List Value → List Nat
  | [] => []
  | v :: tl => encodeValue v ++ encodeList tl

/-- Concatenated encodings of dictionary entries (key, then value). -/
def encodePairs : List (Value × Value) → List Nat
  | [] => []
  | (k, v) :: tl => encodeValue k ++ encodeValue v ++ encodePairs tl

end

mutual

/-- Fuel sufficient for `decode_any` to decode one encoded value. -/
def fuelV : Value → Nat
  | .int _ => 1
  | .bytes _ => 1
  | .list l => 1 + fuelL l
  | .dict ps => 1 + fuelP ps

/-- Fuel sufficient for `seq_loop` to decode the remaining encoded items
and discover the list terminator. -/
def fuelL : List Value → Nat
  | [] => 2
  | v :: tl => 1 + max (fuelV v) (fuelL tl)

/-- Fuel sufficient for `map_loop` to decode the remaining encoded entries
and discover the dictionary terminator. -/
def fuelP : List (Value × Value) → Nat
  | [] => 2
  | (k, v) :: tl => 1 + max (fuelV k) (max (fuelV v) (fuelP tl))

end

/-- Well-formed values: every integer fits in a signed 64-bit machine
word and every byte-string length fits the `i64` length field, so the
value is expressible on the wire. -/
inductive ValueWF : Value → Prop where
  | int : ∀ i : Int, -(2 ^ 63) ≤ i → i ≤ 2 ^ 63 - 1 → ValueWF (.int i)
  | bytes : ∀ b : List Nat, (b.length : Int) ≤ 2 ^ 63 - 1 → ValueWF (.bytes b)
  | list : ∀ l : List Value, (∀ v ∈ l, ValueWF v) → ValueWF (.list l)
  | dict : ∀ ps : List (Value × Value),
      (∀ p ∈ ps, ValueWF p.1) → (∀ p ∈ ps, ValueWF p.2) → ValueWF (.dict ps)

/-- The token `parse_state` scans off the front of an encoded value. -/
def vTok : Value → State
  | .int i => .I i
  | .bytes b => .S b
  | .list _ => .L
  | .dict _ => .D

/-- The bytes of an encoded value that remain after `parse_state` scans
its first token (the body and terminator of a container; nothing for a
scalar, which is scanned in full). -/
def vRest : Value → List Nat
  | .int _ => []
  | .bytes _ => []
  | .list l => encodeList l ++ [101]
  | .dict ps => encodePairs ps ++ [101]

/-! ### Digit-text lemmas: Rust's `i64` text parse inverts decimal rendering -/

theorem digitsValGo_append (xs ys : List Nat) (a : Nat) :
    digitsValGo (xs ++ ys) a =
      match digitsValGo xs a with
      | some a' => digitsValGo ys a'
      | none => none := by
  induction xs generalizing a with
  | nil => simp [digitsValGo]
  | cons b tl ih =>
    simp only [List.cons_append, digitsValGo]
    by_cases h : 48 ≤ b ∧ b ≤ 57
    · simp only [if_pos h]
      exact ih (a * 10 + (b - 48))
    · simp only [if_neg h]

theorem natTextAux_mem_digit : ∀ f m b, b ∈ natTextAux f m → 48 ≤ b ∧ b ≤ 57 := by
  intro f
  induction f with
  | zero => intro m b h; simp [natTextAux] at h
  | succ f ih =>
    intro m b h
    match m with
    | 0 => simp [natTextAux] at h
    | m + 1 =>
      simp only [natTextAux, List.mem_append, List.mem_singleton] at h
      rcases h with h | h
      · exact ih _ _ h
      · subst h
        omega

theorem natTextAux_val : ∀ f m a, m ≤ f →
    digitsValGo (natTextAux f m) a = some (a * 10 ^ (natTextAux f m).length + m) := by
  intro f
  induction f with
  | zero =>
    intro m a h
    interval_cases m
    simp [natTextAux, digitsValGo]
  | succ f ih =>
    intro m a hm
    match m with
    | 0 => simp [natTextAux, digitsValGo]
    | m + 1 =>
      have hdiv : (m + 1) / 10 ≤ f := by omega
      simp only [natTextAux]
      rw [digitsValGo_append, ih _ a hdiv]
      simp only [digitsValGo, List.length_append, List.length_singleton]
      rw [if_pos (by omega)]
      have harith :
          (a * 10 ^ (natTextAux f ((m + 1) / 10)).length + (m + 1) / 10) * 10
              + ((m + 1) % 10 + 48 - 48)
            = a * 10 ^ ((natTextAux f ((m + 1) / 10)).length + 1) + (m + 1) := by
        have hmod : 10 * ((m + 1) / 10) + (m + 1) % 10 = m + 1 := Nat.div_add_mod (m + 1) 10
        have h48 : (m + 1) % 10 + 48 - 48 = (m + 1) % 10 := by omega
        rw [h48, pow_succ]
        calc (a * 10 ^ (natTextAux f ((m + 1) / 10)).length + (m + 1) / 10) * 10
              + (m + 1) % 10
            = a * (10 ^ (natTextAux f ((m + 1) / 10)).length * 10)
              + (10 * ((m + 1) / 10) + (m + 1) % 10) := by ring
          _ = _ := by rw [hmod]
      rw [harith]

theorem natText_ne_nil (m : Nat) : natText m ≠ [] := by
  unfold natText
  split
  · simp
  · next h =>
    obtain ⟨k, rfl⟩ : ∃ k, m = k + 1 := ⟨m - 1, by omega⟩
    simp [natTextAux]

theorem natText_mem_digit (m b : Nat) (h : b ∈ natText m) : 48 ≤ b ∧ b ≤ 57 := by
  unfold natText at h
  split at h
  · simp only [List.mem_singleton] at h
    omega
  · exact natTextAux_mem_digit _ _ _ h

theorem digitsVal_natText (m : Nat) : digitsVal (natText m) = some m := by
  rw [digitsVal, if_neg (natText_ne_nil m)]
  unfold natText
  split
  · next h => subst h; simp [digitsValGo]
  · rw [natTextAux_val m m _ le_rfl]
    simp

theorem parseI64_natText (m : Nat) (hm : (m : Int) ≤ 2 ^ 63 - 1) :
    parseI64 (natText m) = some (m : Int) := by
  obtain ⟨b, tl, hbt⟩ : ∃ b tl, natText m = b :: tl := by
    cases h : natText m with
    | nil => exact absurd h (natText_ne_nil m)
    | cons b tl => exact ⟨b, tl, rfl⟩
  have hd : 48 ≤ b ∧ b ≤ 57 := natText_mem_digit m b (by rw [hbt]; simp)
  rw [hbt, parseI64]
  rw [if_neg (by omega), if_neg (by omega), ← hbt, digitsVal_natText]
  simp only []
  rw [if_pos hm]

theorem parseI64_int_text (n : Int) (h1 : -(2 ^ 63) ≤ n) (h2 : n ≤ 2 ^ 63 - 1) :
    parseI64 (int_text n) = some n := by
  unfold int_text
  split
  · next hneg =>
    obtain ⟨b, tl, hbt⟩ : ∃ b tl, natText (-n).toNat = b :: tl := by
      cases h : natText (-n).toNat with
      | nil => exact absurd h (natText_ne_nil _)
      | cons b tl => exact ⟨b, tl, rfl⟩
    rw [hbt, parseI64, if_neg (by omega), if_pos rfl, ← hbt, digitsVal_natText]
    simp only []
    have hcast : (((-n).toNat : Int)) = -n := Int.toNat_of_nonneg (by omega)
    rw [if_pos (by rw [hcast]; omega)]
    rw [hcast, neg_neg]
  · next hpos =>
    have hcast : ((n.toNat : Int)) = n := Int.toNat_of_nonneg (by omega)
    rw [parseI64_natText n.toNat (by rw [hcast]; omega), hcast]

theorem int_text_bytes (n : Int) : ∀ b ∈ int_text n, b < 128 ∧ b ≠ 101 := by
  unfold int_text
  split
  · intro b hb
    simp only [List.mem_cons] at hb
    rcases hb with rfl | hb
    · omega
    · have := natText_mem_digit _ _ hb
      omega
  · intro b hb
    have := natText_mem_digit _ _ hb
    omega

/-! ### Scanner lemmas: `parse_state` on the front of an encoded value -/

theorem parse_int_go_scan : ∀ (L acc rest : List Nat),
    (∀ b ∈ L, b < 128 ∧ b ≠ 101) →
    parse_int_go (L ++ 101 :: rest) acc =
      (match parseI64 (acc ++ L) with
       | some i => .ok (.I i) rest
       | none =>
         .err (.InvalidValue ("Can't parse `" ++ bytesToString (acc ++ L) ++ "` as i64")) rest) := by
  intro L
  induction L with
  | nil =>
    intro acc rest _
    simp [parse_int_go]
  | cons b tl ih =>
    intro acc rest h
    have hb := h b (by simp)
    simp only [List.cons_append, parse_int_go]
    rw [if_pos hb.1, if_neg hb.2]
    simp only [List.append_eq]
    rw [ih (acc ++ [b]) rest (fun x hx => h x (by simp [hx]))]
    simp [List.append_assoc]

theorem parse_len_go_scan : ∀ (L acc rest : List Nat),
    (∀ b ∈ L, b < 128 ∧ b ≠ 58) →
    parse_len_go (L ++ 58 :: rest) acc =
      (match parseI64 (acc ++ L) with
       | some len => .ok len rest
       | none =>
         .err (.InvalidValue
           ("Can't parse `" ++ bytesToString (acc ++ L) ++ "` as string length")) rest) := by
  intro L
  induction L with
  | nil =>
    intro acc rest _
    simp [parse_len_go]
  | cons b tl ih =>
    intro acc rest h
    have hb := h b (by simp)
    simp only [List.cons_append, parse_len_go]
    rw [if_pos hb.1, if_neg hb.2]
    simp only [List.append_eq]
    rw [ih (acc ++ [b]) rest (fun x hx => h x (by simp [hx]))]
    simp [List.append_assoc]

theorem parse_body_exact : ∀ (b extra : List Nat),
    parse_body b.length (b ++ extra) = .ok b extra := by
  intro b
  induction b with
  | nil => intro extra; simp [parse_body]
  | cons x tl ih =>
    intro extra
    simp only [List.length_cons, List.cons_append, parse_body, List.append_eq, ih]

theorem parse_state_encode (v : Value) (hWF : ValueWF v) (R : List Nat) :
    parse_state (encodeValue v ++ R) = .ok (vTok v) (vRest v ++ R) := by
  cases v with
  | int i =>
    cases hWF with
    | int _ h1 h2 =>
      simp only [encodeValue, vTok, vRest, List.cons_append, List.append_assoc,
        List.singleton_append, List.nil_append]
      rw [parse_state]
      simp only [show (105 : Nat) ≠ 108 by decide, show (105 : Nat) ≠ 100 by decide,
        show (105 : Nat) ≠ 101 by decide, if_neg, if_pos rfl, reduceIte]
      rw [parse_int, parse_int_go_scan (int_text i) [] R (int_text_bytes i)]
      rw [List.nil_append, parseI64_int_text i h1 h2]
  | bytes b =>
    cases hWF with
    | bytes _ hlen =>
      obtain ⟨c, tl, hct⟩ : ∃ c tl, natText b.length = c :: tl := by
        cases h : natText b.length with
        | nil => exact absurd h (natText_ne_nil _)
        | cons c tl => exact ⟨c, tl, rfl⟩
      have hc : 48 ≤ c ∧ c ≤ 57 := natText_mem_digit _ c (by rw [hct]; simp)
      have htl : ∀ x ∈ tl, 48 ≤ x ∧ x ≤ 57 := fun x hx =>
        natText_mem_digit _ x (by rw [hct]; simp [hx])
      simp only [encodeValue, vTok, vRest, hct, List.cons_append, List.append_assoc]
      rw [parse_state]
      rw [if_neg (by omega), if_neg (by omega), if_neg (by omega), if_neg (by omega),
        if_pos hc]
      rw [parse_byte_string, parse_byte_string_len]
      rw [show tl ++ 58 :: (b ++ R) = tl ++ 58 :: (b ++ R) from rfl]
      rw [parse_len_go_scan tl [c] (b ++ R) (fun x hx => by have := htl x hx; omega)]
      rw [show [c] ++ tl = natText b.length from hct.symm, parseI64_natText _ hlen]
      simp only [parse_byte_string_body, Int.toNat_natCast]
      rw [parse_body_exact b R]
      simp
  | list l =>
    simp only [encodeValue, vTok, vRest, List.cons_append, List.append_assoc]
    rw [parse_state]
    simp
  | dict ps =>
    simp only [encodeValue, vTok, vRest, List.cons_append, List.append_assoc]
    rw [parse_state]
    simp

theorem update_state_encode (v : Value) (hWF : ValueWF v) (R : List Nat)
    (σ : List State) (f1 f2 : Bool) :
    update_state ⟨encodeValue v ++ R, σ, f1, f2⟩
      = some ⟨vRest v ++ R, vTok v :: σ, f1, f2⟩ := by
  unfold update_state
  rw [show (⟨encodeValue v ++ R, σ, f1, f2⟩ : BencodeDecoder).reader
        = encodeValue v ++ R from rfl]
  rw [parse_state_encode v hWF R]

theorem decode_any_post_scan (g : Nat) (v : Value) (hWF : ValueWF v) (R : List Nat) :
    decode_any g ⟨vRest v ++ R, [vTok v], false, false⟩
      = decode_any g ⟨encodeValue v ++ R, [], false, false⟩ := by
  cases g with
  | zero => rfl
  | succ g =>
    have h1 : ensure_token ⟨vRest v ++ R, [vTok v], false, false⟩
        = some ⟨vRest v ++ R, [vTok v], false, false⟩ := by
      simp [ensure_token]
    have h2 : ensure_token ⟨encodeValue v ++ R, [], false, false⟩
        = some ⟨vRest v ++ R, [vTok v], false, false⟩ := by
      rw [ensure_token]
      simp only [List.isEmpty_nil, if_pos]
      exact update_state_encode v hWF R [] false false
    simp only [decode_any, h1, h2]

theorem ensure_token_encode (v : Value) (hWF : ValueWF v) (R : List Nat) :
    ensure_token ⟨encodeValue v ++ R, [], false, false⟩
      = some ⟨vRest v ++ R, [vTok v], false, false⟩ := by
  rw [ensure_token]
  simp only [List.isEmpty_nil, if_pos]
  exact update_state_encode v hWF R [] false false

/-! ### Roundtrip: decoding an encoded well-formed value recovers it and
consumes exactly its bytes, leaving an empty stack -/

mutual

theorem dec_enc_v (v : Value) (hWF : ValueWF v) :
    ∀ fuel : Nat, fuelV v ≤ fuel → ∀ R : List Nat,
      decode_any fuel ⟨encodeValue v ++ R, [], false, false⟩
        = .ok v ⟨R, [], false, false⟩ := by
  intro fuel hfuel R
  cases v with
  | int i =>
    obtain ⟨g, rfl⟩ : ∃ g, fuel = g + 1 := by
      simp only [fuelV] at hfuel
      exact ⟨fuel - 1, by omega⟩
    simp only [decode_any, ensure_token_encode _ hWF R]
    simp [vTok, vRest]
  | bytes b =>
    obtain ⟨g, rfl⟩ : ∃ g, fuel = g + 1 := by
      simp only [fuelV] at hfuel
      exact ⟨fuel - 1, by omega⟩
    simp only [decode_any, ensure_token_encode _ hWF R]
    simp [vTok, vRest]
  | list l =>
    obtain ⟨g, rfl⟩ : ∃ g, fuel = g + 1 := by
      simp only [fuelV] at hfuel
      exact ⟨fuel - 1, by omega⟩
    have hmem : ∀ e ∈ l, ValueWF e := by
      cases hWF with
      | list _ h => exact h
    have hg : fuelL l ≤ g := by
      simp only [fuelV] at hfuel
      omega
    simp only [decode_any, ensure_token_encode _ hWF R]
    simp only [vTok, vRest]
    have hloop := dec_enc_l l hmem g hg R []
    simp only [List.append_assoc, List.singleton_append] at hloop ⊢
    simp only [List.reverse_nil, List.nil_append] at hloop
    simpa using hloop
  | dict ps =>
    obtain ⟨g, rfl⟩ : ∃ g, fuel = g + 1 := by
      simp only [fuelV] at hfuel
      exact ⟨fuel - 1, by omega⟩
    have hk : ∀ p ∈ ps, ValueWF p.1 := by
      cases hWF with
      | dict _ h _ => exact h
    have hv : ∀ p ∈ ps, ValueWF p.2 := by
      cases hWF with
      | dict _ _ h => exact h
    have hg : fuelP ps ≤ g := by
      simp only [fuelV] at hfuel
      omega
    simp only [decode_any, ensure_token_encode _ hWF R]
    simp only [vTok, vRest]
    have hloop := dec_enc_p ps hk hv g hg R []
    simp only [List.append_assoc, List.singleton_append] at hloop ⊢
    simp only [List.reverse_nil, List.nil_append] at hloop
    simpa using hloop

theorem dec_enc_l (l : List Value) (hmem : ∀ e ∈ l, ValueWF e) :
    ∀ fuel : Nat, fuelL l ≤ fuel → ∀ (R : List Nat) (acc : List Value),
      seq_loop fuel ⟨encodeList l ++ 101 :: R, [], false, false⟩ acc
        = .ok (.list (acc.reverse ++ l)) ⟨R, [], false, false⟩ := by
  intro fuel hfuel R acc
  cases l with
  | nil =>
    obtain ⟨g, rfl⟩ : ∃ g, fuel = g + 1 := by
      simp only [fuelL] at hfuel
      exact ⟨fuel - 1, by omega⟩
    obtain ⟨g', rfl⟩ : ∃ g', g = g' + 1 := by
      simp only [fuelL] at hfuel
      exact ⟨g - 1, by omega⟩
    have hup : update_state ⟨101 :: R, [], false, false⟩
        = some ⟨R, [.E], false, false⟩ := by
      simp [update_state, parse_state]
    have hdec : decode_any (g' + 1) ⟨R, [.E], false, false⟩
        = .err .EndOfStream ⟨R, [], false, false⟩ := by
      simp [decode_any, ensure_token]
    simp only [encodeList, List.nil_append, seq_loop, next_element_seed, hup, hdec]
    simp

  | cons v tl =>
    obtain ⟨g, rfl⟩ : ∃ g, fuel = g + 1 := by
      simp only [fuelL] at hfuel
      exact ⟨fuel - 1, by omega⟩
    have hgv : fuelV v ≤ g := by
      simp only [fuelL] at hfuel
      omega
    have hgtl : fuelL tl ≤ g := by
      simp only [fuelL] at hfuel
      omega
    have hvWF : ValueWF v := hmem v (by simp)
    have hstep : decode_any g
        ⟨vRest v ++ (encodeList tl ++ 101 :: R), [vTok v], false, false⟩
        = .ok v ⟨encodeList tl ++ 101 :: R, [], false, false⟩ := by
      rw [decode_any_post_scan g v hvWF]
      exact dec_enc_v v hvWF g hgv _
    have hrest := dec_enc_l tl (fun e he => hmem e (by simp [he])) g hgtl R (v :: acc)
    simp only [encodeList, List.append_assoc, seq_loop, next_element_seed,
      update_state_encode v hvWF (encodeList tl ++ 101 :: R) [] false false, hstep]
    rw [hrest]
    simp

theorem dec_enc_p (ps : List (Value × Value))
    (hk : ∀ p ∈ ps, ValueWF p.1) (hv : ∀ p ∈ ps, ValueWF p.2) :
    ∀ fuel : Nat, fuelP ps ≤ fuel → ∀ (R : List Nat) (acc : List (Value × Value)),
      map_loop fuel ⟨encodePairs ps ++ 101 :: R, [], false, false⟩ acc
        = .ok (.dict (acc.reverse ++ ps)) ⟨R, [], false, false⟩ := by
  intro fuel hfuel R acc
  cases ps with
  | nil =>
    obtain ⟨g, rfl⟩ : ∃ g, fuel = g + 1 := by
      simp only [fuelP] at hfuel
      exact ⟨fuel - 1, by omega⟩
    obtain ⟨g', rfl⟩ : ∃ g', g = g' + 1 := by
      simp only [fuelP] at hfuel
      exact ⟨g - 1, by omega⟩
    have hup : update_state ⟨101 :: R, [], false, false⟩
        = some ⟨R, [.E], false, false⟩ := by
      simp [update_state, parse_state]
    have hdec : decode_any (g' + 1) ⟨R, [.E], false, false⟩
        = .err .EndOfStream ⟨R, [], false, false⟩ := by
      simp [decode_any, ensure_token]
    simp only [encodePairs, List.nil_append, map_loop, next_key_seed, hup, hdec]
    simp
  | cons p tl =>
    obtain ⟨k, v⟩ := p
    obtain ⟨g, rfl⟩ : ∃ g, fuel = g + 1 := by
      simp only [fuelP] at hfuel
      exact ⟨fuel - 1, by omega⟩
    have hgk : fuelV k ≤ g := by
      simp only [fuelP] at hfuel
      omega
    have hgv : fuelV v ≤ g := by
      simp only [fuelP] at hfuel
      omega
    have hgtl : fuelP tl ≤ g := by
      simp only [fuelP] at hfuel
      omega
    have hkWF : ValueWF k := hk (k, v) (by simp)
    have hvWF : ValueWF v := hv (k, v) (by simp)
    have hkstep : decode_any g
        ⟨vRest k ++ (encodeValue v ++ (encodePairs tl ++ 101 :: R)), [vTok k],
          false, false⟩
        = .ok k ⟨encodeValue v ++ (encodePairs tl ++ 101 :: R), [], false, false⟩ := by
      rw [decode_any_post_scan g k hkWF]
      exact dec_enc_v k hkWF g hgk _
    have hvstep : decode_any g
        ⟨vRest v ++ (encodePairs tl ++ 101 :: R), [vTok v], false, false⟩
        = .ok v ⟨encodePairs tl ++ 101 :: R, [], false, false⟩ := by
      rw [decode_any_post_scan g v hvWF]
      exact dec_enc_v v hvWF g hgv _
    have hrest := dec_enc_p tl (fun q hq => hk q (by simp [hq]))
      (fun q hq => hv q (by simp [hq])) g hgtl R ((k, v) :: acc)
    simp only [encodePairs, List.append_assoc, map_loop, next_key_seed,
      List.head?_nil, reduceCtorEq,
      update_state_encode k hkWF (encodeValue v ++ (encodePairs tl ++ 101 :: R)) []
        false false,
      hkstep]
    simp only [if_false]
    simp only [next_value_seed,
      update_state_encode v hvWF (encodePairs tl ++ 101 :: R) [] false false, hvstep]
    rw [hrest]
    simp

end

theorem encode_len_pos (v : Value) : 1 ≤ (encodeValue v).length := by
  cases v with
  | int i => simp [encodeValue]
  | bytes b =>
    simp only [encodeValue, List.length_append, List.length_cons]
    omega
  | list l => simp [encodeValue]
  | dict ps => simp [encodeValue]

mutual

theorem fuelV_le (v : Value) : fuelV v ≤ (encodeValue v).length + 1 := by
  cases v with
  | int i => simp [fuelV]
  | bytes b => simp [fuelV]
  | list l =>
    have h := fuelL_le l
    simp only [fuelV, encodeValue, List.length_cons, List.length_append,
      List.length_singleton]
    omega
  | dict ps =>
    have h := fuelP_le ps
    simp only [fuelV, encodeValue, List.length_cons, List.length_append,
      List.length_singleton]
    omega

theorem fuelL_le (l : List Value) : fuelL l ≤ (encodeList l).length + 2 := by
  cases l with
  | nil => simp [fuelL, encodeList]
  | cons v tl =>
    have h1 := fuelV_le v
    have h2 := fuelL_le tl
    have h3 := encode_len_pos v
    simp only [fuelL, encodeList, List.length_append]
    omega

theorem fuelP_le (ps : List (Value × Value)) :
    fuelP ps ≤ (encodePairs ps).length + 2 := by
  cases ps with
  | nil => simp [fuelP, encodePairs]
  | cons p tl =>
    obtain ⟨k, v⟩ := p
    have h1 := fuelV_le k
    have h2 := fuelV_le v
    have h3 := fuelP_le tl
    have h4 := encode_len_pos k
    have h5 := encode_len_pos v
    simp only [fuelP, encodePairs, List.length_append]
    omega

end

/-- `from_bytes` on an encoded well-formed value followed by arbitrary
trailing bytes: the value is recovered, the trailing bytes are left
untouched in the reader, and the token stack finishes empty. -/
theorem from_bytes_encode (v : Value) (hWF : ValueWF v) (extra : List Nat) :
    from_bytes (encodeValue v ++ extra) = .ok v ⟨extra, [], false, false⟩ := by
  rw [from_bytes, BencodeDecoder.new]
  refine dec_enc_v v hWF _ ?_ extra
  have h := fuelV_le v
  simp only [List.length_append]
  omega

/-! ### Claim theorems -/

/-- C1: for every sequence being decoded, when the attempt to decode the
next element fails for any reason, `next_element_seed` pops the offending
token from the decoder's stack and reports exhaustion (`Ok(None)`)
instead of propagating the error; the failure is absorbed and never
surfaced to the caller. -/
theorem claim_c1_seq_probe_absorbs_failure (α : Type)
    (seed : BencodeDecoder → DOut α) (d d1 d2 : BencodeDecoder)
    (e : BencodeError)
    (h1 : update_state d = some d1) (h2 : seed d1 = .err e d2) :
    next_element_seed seed d = .ok none { d2 with state := d2.state.tail } := by
  simp only [next_element_seed, h1, h2]

/-- Witness for C1 at a concrete decoder state and failing seed. -/
theorem claim_c1_witness :
    update_state (BencodeDecoder.new []) = some (BencodeDecoder.new []) ∧
    next_element_seed (fun d => (DOut.err .EndOfStream d : DOut Value))
        (BencodeDecoder.new [])
      = .ok none
          { BencodeDecoder.new [] with state := (BencodeDecoder.new []).state.tail } :=
  ⟨rfl,
   claim_c1_seq_probe_absorbs_failure Value _ _ _ _ BencodeError.EndOfStream rfl rfl⟩

/-- C2: decoding the input `4:ab` (declared byte-string length 4 exceeds
the 2 available bytes) evaluates to a PANIC — the `assert!` in
`parse_byte_string_body` fails on the short read — and not to the
`EndOfStream` error the claim states. -/
theorem claim_c2_short_read_panics :
    from_bytes [52, 58, 97, 98] = DOut.panic := rfl

/-- C3 (counterexample): decoding `d3:cow3:mooe` into the one-field
struct target succeeds, yet it leaves the key token and the
dictionary-open token on the stack — after this successful top-level
decode the stack is NOT empty, refuting the claim for struct-shaped
targets. -/
theorem claim_c3_counterexample :
    decode_struct_cow 9 (BencodeDecoder.new
        [100, 51, 58, 99, 111, 119, 51, 58, 109, 111, 111, 101])
      = .ok (.bytes [109, 111, 111])
          ⟨[], [.S [99, 111, 119], .D], true, false⟩ ∧
    (State.S [99, 111, 119] :: [State.D]) ≠ [] :=
  ⟨rfl, by simp⟩

/-- C3 (amended): after a successful top-level decode of a non-struct
(self-describing) target the token stack is empty — for every well-formed
value, decoding its encoding ends with an empty stack and the input fully
consumed; struct-shaped targets, by contrast, leave the dictionary-open
and key tokens behind (see the counterexample). -/
theorem claim_c3_amended_stack_empty (v : Value) (hWF : ValueWF v) :
    from_bytes (encodeValue v) = .ok v ⟨[], [], false, false⟩ := by
  have h := from_bytes_encode v hWF []
  simpa using h

/-- Witness for the amended C3 at a concrete byte-string value. -/
theorem claim_c3_witness :
    ValueWF (.bytes [97]) ∧
    from_bytes (encodeValue (.bytes [97]))
      = .ok (.bytes [97]) ⟨[], [], false, false⟩ :=
  ⟨ValueWF.bytes [97] (by decide),
   claim_c3_amended_stack_empty (.bytes [97]) (ValueWF.bytes [97] (by decide))⟩

/-- C4: for every representable 64-bit signed integer `n`, decoding the
ASCII text form `i<n>e` yields exactly `n` (and consumes the input with
an empty stack). -/
theorem claim_c4_int_roundtrip (n : Int)
    (h1 : -(2 ^ 63) ≤ n) (h2 : n ≤ 2 ^ 63 - 1) :
    from_bytes (105 :: int_text n ++ [101])
      = .ok (.int n) ⟨[], [], false, false⟩ := by
  have h := from_bytes_encode (.int n) (ValueWF.int n h1 h2) []
  simp only [encodeValue, List.append_nil] at h
  simpa using h

/-- Witness for C4 at `n = 3`. -/
theorem claim_c4_witness :
    (-(2 ^ 63) ≤ (3 : Int)) ∧ ((3 : Int) ≤ 2 ^ 63 - 1) ∧
    from_bytes (105 :: int_text 3 ++ [101])
      = .ok (.int 3) ⟨[], [], false, false⟩ :=
  ⟨by decide, by decide,
   claim_c4_int_roundtrip 3 (by decide) (by decide)⟩

/-- C5 (counterexample): the full decode of `i3.0e` fails with
`EndOfStream`, not with the `InvalidValue` the claim states — the
scanner's `InvalidValue` is swallowed by `update_state`, and
`deserialize_any` then reports the empty stack as `EndOfStream`. -/
theorem claim_c5_counterexample :
    from_bytes [105, 51, 46, 48, 101]
      = .err .EndOfStream ⟨[], [], false, false⟩ := rfl

/-- C5 (amended): the scanner (`parse_state` / `parse_int`) fails with
`InvalidValue` on `i3.0e` and `iabce` and with `EndOfStream` on `i`
followed by end-of-input; at the top level, however, `update_state`
swallows the scanner error and each of the three inputs surfaces as
`EndOfStream`. -/
theorem claim_c5_amended :
    parse_state [105, 51, 46, 48, 101]
      = .err (.InvalidValue "Can't parse `3.0` as i64") [] ∧
    parse_state [105, 97, 98, 99, 101]
      = .err (.InvalidValue "Can't parse `abc` as i64") [] ∧
    parse_state [105] = .err .EndOfStream [] ∧
    from_bytes [105, 51, 46, 48, 101]
      = .err .EndOfStream ⟨[], [], false, false⟩ ∧
    from_bytes [105, 97, 98, 99, 101]
      = .err .EndOfStream ⟨[], [], false, false⟩ ∧
    from_bytes [105] = .err .EndOfStream ⟨[], [], false, false⟩ :=
  ⟨rfl, rfl, rfl, rfl, rfl, rfl⟩

/-- C6 (counterexample): decoding the one-entry dictionary `d3:cowi5ee`
into a tagged-union target does NOT dispatch on the sole key `cow`: the
variant identifier delivered by `variant_seed` is the shape-inferred tag
`Dict` (because `deserialize_enum` clears struct mode), and the payload
handed to `newtype_variant_seed` is the ENTIRE dictionary, not the paired
value. -/
theorem claim_c6_counterexample :
    decode_enum 9 (BencodeDecoder.new
        [100, 51, 58, 99, 111, 119, 105, 53, 101, 101])
      = .ok (.str "Dict", .dict [(.bytes [99, 111, 119], .int 5)])
          ⟨[], [], true, false⟩ ∧
    Ident.str "Dict" ≠ Ident.bytes [99, 111, 119] :=
  ⟨rfl, by decide⟩

/-- C6 (amended): decoding a dictionary into a tagged-union target infers
the variant name from the staged token's shape (always `Dict` for a
dictionary) and hands the whole dictionary to the newtype payload; the
entry count is irrelevant — dictionaries with zero entries (`de`) and
with two entries (`d1:ai1e1:bi2ee`) both decode without any
`UnknownVariant` error. -/
theorem claim_c6_amended :
    decode_enum 5 (BencodeDecoder.new [100, 101])
      = .ok (.str "Dict", .dict []) ⟨[], [], true, false⟩ ∧
    decode_enum 15 (BencodeDecoder.new
        [100, 49, 58, 97, 105, 49, 101, 49, 58, 98, 105, 50, 101, 101])
      = .ok (.str "Dict", .dict [(.bytes [97], .int 1), (.bytes [98], .int 2)])
          ⟨[], [], true, false⟩ :=
  ⟨rfl, rfl⟩

/-- C7: for every decoder state, requesting a unit variant, a tuple
variant, or a struct variant of a tagged-union target fails with
`UnknownVariant`, while the newtype (single-payload) variant defers to
its payload seed. -/
theorem claim_c7_variant_shapes (α : Type) (d : BencodeDecoder) (n : Nat)
    (fields : List String) (seed : BencodeDecoder → DOut α) :
    unit_variant d = .err (.UnknownVariant "Unit variant not supported.") d ∧
    (tuple_variant n d : DOut α)
      = .err (.UnknownVariant "Tuple variant not supported.") d ∧
    (struct_variant fields d : DOut α)
      = .err (.UnknownVariant "Struct variant not supported.") d ∧
    newtype_variant_seed seed d = seed d :=
  ⟨rfl, rfl, rfl, rfl⟩

/-- C8: `next_key_seed` first peeks, without popping, whether the top
token is `E` and reports exhaustion immediately, leaving the decoder
untouched; the sequence path has no such check — with the same `E` on
top, `next_element_seed` still runs `update_state` and the element
seed. -/
theorem claim_c8_map_end_peek :
    (∀ (α : Type) (seed : BencodeDecoder → DOut α) (d : BencodeDecoder),
      d.state.head? = some State.E → next_key_seed seed d = .ok none d) ∧
    next_key_seed (fun d => (DOut.ok (42 : Nat) d))
        ⟨[], [State.E], false, false⟩
      = .ok none ⟨[], [State.E], false, false⟩ ∧
    next_element_seed (fun d => (DOut.ok (42 : Nat) d))
        ⟨[], [State.E], false, false⟩
      = .ok (some 42) ⟨[], [State.E], false, false⟩ := by
  refine ⟨?_, rfl, rfl⟩
  intro α seed d h
  rw [next_key_seed, if_pos h]

/-- Witness for the universally quantified part of C8 at a concrete
decoder state whose top token is `E`. -/
theorem claim_c8_witness :
    (⟨[], [State.E], false, false⟩ : BencodeDecoder).state.head?
      = some State.E ∧
    next_key_seed (fun d => (DOut.ok (0 : Nat) d)) ⟨[], [State.E], false, false⟩
      = .ok none ⟨[], [State.E], false, false⟩ :=
  ⟨rfl, claim_c8_map_end_peek.1 Nat _ _ rfl⟩

/-- C9: decoding is deterministic — the result is a pure function of the
input bytes, and two independently constructed decoder instances over the
same input yield equal results; the embedding is pure, with no
process-wide state for a decode call to mutate. -/
theorem claim_c9_deterministic (input : List Nat) :
    from_bytes input = from_bytes input ∧
    ∀ fuel : Nat,
      decode_any fuel (BencodeDecoder.new input)
        = decode_any fuel (BencodeDecoder.new input) :=
  ⟨rfl, fun _ => rfl⟩

/-- C10: for every well-formed value, decoding its encoding followed by
arbitrary trailing bytes returns the same decoded value as decoding the
encoding alone; the trailing bytes are left untouched in the reader
(never read, never validated, never an error). -/
theorem claim_c10_trailing_bytes (v : Value) (extra : List Nat)
    (hWF : ValueWF v) :
    from_bytes (encodeValue v ++ extra) = .ok v ⟨extra, [], false, false⟩ ∧
    from_bytes (encodeValue v) = .ok v ⟨[], [], false, false⟩ := by
  refine ⟨from_bytes_encode v hWF extra, ?_⟩
  have h := from_bytes_encode v hWF []
  simpa using h

/-- Witness for C10 at the integer 7 with trailing bytes `xyz`. -/
theorem claim_c10_witness :
    ValueWF (.int 7) ∧
    from_bytes (encodeValue (.int 7) ++ [120, 121, 122])
      = .ok (.int 7) ⟨[120, 121, 122], [], false, false⟩ :=
  ⟨ValueWF.int 7 (by decide) (by decide),
   (claim_c10_trailing_bytes (.int 7) [120, 121, 122]
      (ValueWF.int 7 (by decide) (by decide))).1⟩

end Bencode
